import Mathlib

/-!
Verification development for the ffmpeg MCP tool server
(`src/mastra/tools/ffmpegTool.ts`).  The TypeScript source is shallowly
embedded: pure string manipulation becomes functions on `List Char` /
`String`, the event-driven process runners become resolution functions on
explicit event types, and the module-level capture-session state becomes an
explicit state record.
-/

namespace FFmpegMCP

/-- The ECMAScript whitespace set used by `String.prototype.trim` and by
the regex class `\s`: tab, LF, VT, FF, CR, space, NBSP, and the Unicode
space separators, plus BOM. -/
def isJsSpace (c : Char) : Bool :=
  let n := c.toNat
  n = 9 || n = 10 || n = 11 || n = 12 || n = 13 || n = 32 || n = 160 ||
  n = 0x1680 || (0x2000 ≤ n && n ≤ 0x200A) || n = 0x2028 || n = 0x2029 ||
  n = 0x202F || n = 0x205F || n = 0x3000 || n = 0xFEFF

/-- JavaScript `String.prototype.trim` on a character list: remove leading
and trailing whitespace. -/
def jsTrim (l : List Char) : List Char :=
  ((l.dropWhile isJsSpace).reverse.dropWhile isJsSpace).reverse

/-- The regex character class `[a-zA-Z0-9.-]` from `sanitizeFilename`
(line 42 of the source): the characters that are NOT replaced by an
underscore. -/
def validChar (c : Char) : Bool :=
  (97 ≤ c.toNat && c.toNat ≤ 122) ||   -- a-z
  (65 ≤ c.toNat && c.toNat ≤ 90) ||    -- A-Z
  (48 ≤ c.toNat && c.toNat ≤ 57) ||    -- 0-9
  c = '.' || c = '-'

/-- One character of `filename.replace(/[^a-zA-Z0-9.-]/g, '_')`. -/
def replChar (c : Char) : Char :=
  if validChar c then c else '_'

/-- One character of JavaScript `toLowerCase` restricted to ASCII; on the
characters reachable inside `sanitizeFilename` (the output alphabet of
`replChar`) this agrees with the full Unicode `toLowerCase`. -/
def lowerChar (c : Char) : Char :=
  if 65 ≤ c.toNat ∧ c.toNat ≤ 90 then Char.ofNat (c.toNat + 32) else c

/-- The output alphabet of the sanitizer: lowercase letters, digits, dot,
hyphen, underscore. -/
def sanOutChar (c : Char) : Bool :=
  (97 ≤ c.toNat && c.toNat ≤ 122) ||
  (48 ≤ c.toNat && c.toNat ≤ 57) ||
  c = '.' || c = '-' || c = '_'

/-- Embedding of `replace(/_{2,}/g, '_')`: every maximal run of two or more underscores
becomes a single underscore. -/
def collapseUnderscores : List Char → List Char
  | [] => []
  | c :: rest =>
    if c = '_' ∧ (collapseUnderscores rest).head? = some '_' then
      collapseUnderscores rest
    else
      c :: collapseUnderscores rest

/-- Whether the list contains two adjacent underscores. -/
def hasDoubleUnderscore : List Char → Bool
  | [] => false
  | [_] => false
  | a :: b :: rest => (a = '_' && b = '_') || hasDoubleUnderscore (b :: rest)

/-- Drop a single leading underscore (the `^_` alternative of
`replace(/^_|_$/g, '')`). -/
def dropLeadUnderscore (l : List Char) : List Char :=
  match l with
  | [] => []
  | c :: rest => if c = '_' then rest else c :: rest

/-- Drop a single trailing underscore (the `_$` alternative of
`replace(/^_|_$/g, '')`). -/
def dropTrailUnderscore (l : List Char) : List Char :=
  (dropLeadUnderscore l.reverse).reverse

/-- Embedding of `replace(/^_|_$/g, '')`: with no multiline flag, the regex matches at
most one leading underscore and at most one trailing underscore. -/
def stripEnds (l : List Char) : List Char :=
  dropTrailUnderscore (dropLeadUnderscore l)

/-- The four chained string operations of `FFmpegUtils.sanitizeFilename`
(source lines 41-45), before the empty-string fallback. -/
def sanitizeCore (l : List Char) : List Char :=
  stripEnds (collapseUnderscores ((l.map replChar).map lowerChar))

/-- Embedding of `FFmpegUtils.sanitizeFilename` (source lines 40-48): replace characters
outside `[a-zA-Z0-9.-]` by `_`, lowercase, collapse underscore runs, strip
one leading and one trailing underscore, and fall back to
`"uploaded_file"` when the result is empty. -/
def sanitizeFilename (s : String) : String :=
  let r := sanitizeCore s.toList
  if r = [] then "uploaded_file" else String.mk r

/-- The uniform result shape of the three runners:
`{ success: boolean; output: string; error?: string }`. -/
structure CommandResult where
  success : Bool
  output : String
  error : Option String
deriving Repr, DecidableEq

/-- The events that can resolve a `FFmpegUtils.executeCommand` invocation
(source lines 70-102): the `exec` callback fires with an optional error and
the captured stdout/stderr, or the 600000 ms timer fires first. -/
inductive ShellEvent where
  | completed (err : Option String) (stdout stderr : String)
  | timedOut
deriving Repr, DecidableEq

/-- The events that can resolve a `spawn`-based runner invocation
(`FFmpegUtils.executeFFmpegCommand`, lines 104-160, and
`FFmpegUtils.executeFFprobeCommand`, lines 162-216, whose handler code is
identical): the `close` event with an exit code, the `error` event, or the
600000 ms timer. -/
inductive ArgvEvent where
  | close (code : Int)
  | errored (message : String)
  | timedOut
deriving Repr, DecidableEq

/-- Resolution of one `FFmpegUtils.executeCommand` call: the returned
`CommandResult` together with whether `proc.kill()` was issued on that
path.  The `exec` callback concatenates `stdout + stderr`; the timeout
branch kills the process and resolves with a fixed result, discarding any
captured output. -/
def shellRunnerStep : ShellEvent → CommandResult × Bool
  | .completed none stdout stderr => (⟨true, stdout ++ stderr, none⟩, false)
  | .completed (some m) stdout stderr => (⟨false, stdout ++ stderr, some m⟩, false)
  | .timedOut => (⟨false, "", some "Command timed out"⟩, true)

/-- Resolution of one argv-runner call (`executeFFmpegCommand` /
`executeFFprobeCommand`), given the stdout and stderr accumulated so far:
the returned `CommandResult` together with whether `proc.kill()` was issued
on that path. -/
def argvRunnerStep (stdout stderr : String) : ArgvEvent → CommandResult × Bool
  | .close code =>
    if code = 0 then
      (⟨true, stdout ++ stderr, none⟩, false)
    else
      (⟨false, stdout ++ stderr, some ("Process exited with code " ++ toString code)⟩, false)
  | .errored m => (⟨false, "", some m⟩, false)
  | .timedOut => (⟨false, "", some "Command timed out"⟩, true)

/-- The early-return envelope of `executeFFmpegCommandTool`:
`{ success, message, error }`. -/
structure ToolResponse where
  success : Bool
  message : String
  error : Option String
deriving Repr, DecidableEq

/-- What `executeFFmpegCommandTool.execute` decides to do with the supplied
command string: reject it with a validation envelope, or hand a (possibly
modified) command line to `FFmpegUtils.executeCommand`. -/
inductive ToolOutcome where
  | reject (resp : ToolResponse)
  | execute (cmd : String)
deriving Repr, DecidableEq

/-- Embedding of `command.replace(/^ffmpeg\s/, 'ffmpeg -y ')` (source line 326): when
the string begins with `ffmpeg` immediately followed by one whitespace
character, that 7-character prefix is replaced by `ffmpeg -y `; otherwise
the string is unchanged. -/
def replaceFfmpegY (l : List Char) : List Char :=
  match l with
  | 'f' :: 'f' :: 'm' :: 'p' :: 'e' :: 'g' :: c :: rest =>
    if isJsSpace c then "ffmpeg -y ".toList ++ rest else l
  | _ => l

/-- Whether a raw command matches the rewrite pattern `^ffmpeg\s`: the
string begins with `ffmpeg` immediately followed by a whitespace
character. -/
def startsFfmpegSpace (l : List Char) : Bool :=
  match l with
  | 'f' :: 'f' :: 'm' :: 'p' :: 'e' :: 'g' :: c :: _ => isJsSpace c
  | _ => false

/-- The command-routing logic of `executeFFmpegCommandTool.execute`
(source lines 314-327): reject unless the trimmed command starts with
`ffmpeg` or `ffprobe`; otherwise run the command after the `-y`
injection rewrite. -/
def executeFFmpegCommandToolRoute (command : String) : ToolOutcome :=
  let t := jsTrim command.toList
  if !("ffmpeg".toList.isPrefixOf t) && !("ffprobe".toList.isPrefixOf t) then
    ToolOutcome.reject ⟨false, "Only ffmpeg and ffprobe commands are allowed", some "Invalid command"⟩
  else
    ToolOutcome.execute (String.mk (replaceFfmpegY command.toList))

/-- The module-level capture-session state of `FFmpegUtils`
(`captureProcess`, `captureOutputFile`, lines 31-32), with process handles
modelled as sequential numeric ids: `nextHandle` is the id `exec` would
assign to the next spawned process, and `killedHandles` records every
handle on which `kill()` has been called, in order. -/
structure CaptureState where
  captureProcess : Option Nat
  captureOutputFile : Option String
  nextHandle : Nat
  killedHandles : List Nat
  spawnLog : List (Nat × String)
deriving Repr, DecidableEq

/-- Embedding of `FFmpegUtils.startCapture` (source lines 218-225): kill the existing
capture process if any, record the output file, and spawn
`exec(command)` as the new capture process. -/
def startCapture (st : CaptureState) (command : String) (outputFile : String) : CaptureState :=
  let st1 :=
    match st.captureProcess with
    | some h => { st with killedHandles := st.killedHandles ++ [h] }
    | none => st
  { st1 with
    captureProcess := some st1.nextHandle,
    captureOutputFile := some outputFile,
    nextHandle := st1.nextHandle + 1,
    spawnLog := st1.spawnLog ++ [(st1.nextHandle, command)] }

/-- The reply of `FFmpegUtils.stopCapture`. -/
structure StopResult where
  status : String
  filename : Option String
deriving Repr, DecidableEq

/-- Embedding of `FFmpegUtils.stopCapture` (source lines 227-236). -/
def stopCapture (st : CaptureState) : CaptureState × StopResult :=
  match st.captureProcess with
  | some h =>
    ({ st with
       captureProcess := none,
       captureOutputFile := none,
       killedHandles := st.killedHandles ++ [h] },
     ⟨"stopped", st.captureOutputFile⟩)
  | none => (st, ⟨"not_running", none⟩)

/-- The record built by `FFmpegUtils.parseFFprobeOutput`: a format map and
a sequence of stream maps.  JavaScript objects keep insertion order, so
both maps are association lists. -/
structure ProbeResult where
  format : List (String × String)
  streams : List (List (String × String))
deriving Repr, DecidableEq

/-- The loop state of `parseFFprobeOutput` (source lines 241-243):
the result being built, the in-progress stream record, and the
`inStream` flag. -/
structure ProbeState where
  format : List (String × String)
  streams : List (List (String × String))
  currentStream : List (String × String)
  inStream : Bool
deriving Repr, DecidableEq

/-- JavaScript object insertion `obj[key] = value`: overwrite in place if
the key exists, else append (insertion order is preserved). -/
def jsObjectInsert (m : List (String × String)) (k v : String) : List (String × String) :=
  if m.any (fun p => p.1 = k) then
    m.map (fun p => if p.1 = k then (k, v) else p)
  else
    m ++ [(k, v)]

/-- First component of JavaScript `line.split('=', 2)`: the text before
the first `=`. -/
def splitEqKey (l : List Char) : List Char :=
  l.takeWhile (· ≠ '=')

/-- Second component of JavaScript `line.split('=', 2)`: the text strictly
between the first and the second `=` (a limit-2 split truncates the result
array, so anything from the second `=` on is dropped). -/
def splitEqVal (l : List Char) : List Char :=
  ((l.dropWhile (· ≠ '=')).drop 1).takeWhile (· ≠ '=')

/-- JavaScript `output.split('\n')`: split on every newline, keeping empty
segments (a trailing newline yields a final empty segment). -/
def splitNewline : List Char → List (List Char)
  | [] => [[]]
  | c :: rest =>
    match splitNewline rest with
    | [] => [[c]]
    | h :: t => if c = '\n' then [] :: h :: t else (c :: h) :: t

/-- One iteration of the `for (const line of lines)` loop of
`parseFFprobeOutput` (source lines 245-262). -/
def processProbeLine (st : ProbeState) (line : List Char) : ProbeState :=
  if "[FORMAT]".toList.isPrefixOf line then
    { st with inStream := false }
  else if "[STREAM]".toList.isPrefixOf line then
    { st with
      streams := if st.currentStream ≠ [] then st.streams ++ [st.currentStream] else st.streams,
      currentStream := [],
      inStream := true }
  else if line.contains '=' then
    let k := String.mk (jsTrim (splitEqKey line))
    let v := String.mk (jsTrim (splitEqVal line))
    if st.inStream then
      { st with currentStream := jsObjectInsert st.currentStream k v }
    else
      { st with format := jsObjectInsert st.format k v }
  else
    st

/-- Embedding of `FFmpegUtils.parseFFprobeOutput` (source lines 238-272): fold the line
handler over the split input, then flush a non-empty in-progress stream
record.  (The surrounding `try/catch` is unreachable for this pure
computation and is not modelled.) -/
def parseFFprobeOutput (s : String) : ProbeResult :=
  let st := (splitNewline s.toList).foldl processProbeLine ⟨[], [], [], false⟩
  ⟨st.format, if st.currentStream ≠ [] then st.streams ++ [st.currentStream] else st.streams⟩

/-! ### Sanitizer invariants -/

theorem char_toNat_ofNat (n : Nat) (h : n < 55296) : (Char.ofNat n).toNat = n := by
  have hv : n.isValidChar := Or.inl h
  unfold Char.ofNat
  rw [dif_pos hv]
  rfl

theorem sanOut_lowerChar_replChar (c : Char) : sanOutChar (lowerChar (replChar c)) = true := by
  by_cases hv : validChar c = true
  · have hv' : (97 ≤ c.toNat ∧ c.toNat ≤ 122) ∨ (65 ≤ c.toNat ∧ c.toNat ≤ 90) ∨
        (48 ≤ c.toNat ∧ c.toNat ≤ 57) ∨ c = '.' ∨ c = '-' := by
      have h2 := hv
      simp only [validChar, Bool.or_eq_true, Bool.and_eq_true, decide_eq_true_eq] at h2
      tauto
    rw [replChar, if_pos hv]
    by_cases hu : 65 ≤ c.toNat ∧ c.toNat ≤ 90
    · rw [lowerChar, if_pos hu]
      have h32 : (Char.ofNat (c.toNat + 32)).toNat = c.toNat + 32 :=
        char_toNat_ofNat _ (by omega)
      simp [sanOutChar, h32]
      omega
    · rw [lowerChar, if_neg hu]
      rcases hv' with h | h | h | h | h
      · simp [sanOutChar]; omega
      · exact absurd h hu
      · simp [sanOutChar]; omega
      · subst h; decide
      · subst h; decide
  · have h : replChar c = '_' := by rw [replChar, if_neg hv]
    rw [h]; decide

theorem replChar_eq_self_of_sanOut {c : Char} (h : sanOutChar c = true) : replChar c = c := by
  have h' : (97 ≤ c.toNat ∧ c.toNat ≤ 122) ∨ (48 ≤ c.toNat ∧ c.toNat ≤ 57) ∨
      c = '.' ∨ c = '-' ∨ c = '_' := by
    have h2 := h
    simp only [sanOutChar, Bool.or_eq_true, Bool.and_eq_true, decide_eq_true_eq] at h2
    tauto
  rcases h' with h | h | h | h | h
  · rw [replChar, if_pos (by simp [validChar]; omega)]
  · rw [replChar, if_pos (by simp [validChar]; omega)]
  · subst h; decide
  · subst h; decide
  · subst h; decide

theorem lowerChar_eq_self_of_sanOut {c : Char} (h : sanOutChar c = true) : lowerChar c = c := by
  have h' : (97 ≤ c.toNat ∧ c.toNat ≤ 122) ∨ (48 ≤ c.toNat ∧ c.toNat ≤ 57) ∨
      c = '.' ∨ c = '-' ∨ c = '_' := by
    have h2 := h
    simp only [sanOutChar, Bool.or_eq_true, Bool.and_eq_true, decide_eq_true_eq] at h2
    tauto
  rcases h' with h | h | h | h | h
  · rw [lowerChar, if_neg (by omega)]
  · rw [lowerChar, if_neg (by omega)]
  · subst h; decide
  · subst h; decide
  · subst h; decide

theorem mem_collapseUnderscores {c : Char} :
    ∀ l : List Char, c ∈ collapseUnderscores l → c ∈ l
  | [] => by simp [collapseUnderscores]
  | a :: rest => by
    intro h
    simp only [collapseUnderscores] at h
    by_cases hcond : a = '_' ∧ (collapseUnderscores rest).head? = some '_'
    · rw [if_pos hcond] at h
      exact List.mem_cons_of_mem _ (mem_collapseUnderscores rest h)
    · rw [if_neg hcond] at h
      rcases List.mem_cons.mp h with h | h
      · exact h ▸ List.mem_cons_self _ _
      · exact List.mem_cons_of_mem _ (mem_collapseUnderscores rest h)

theorem hasDD_collapseUnderscores (l : List Char) :
    hasDoubleUnderscore (collapseUnderscores l) = false := by
  induction l with
  | nil => rfl
  | cons a rest ih =>
    simp only [collapseUnderscores]
    by_cases hcond : a = '_' ∧ (collapseUnderscores rest).head? = some '_'
    · rw [if_pos hcond]; exact ih
    · rw [if_neg hcond]
      cases hcr : collapseUnderscores rest with
      | nil => simp [hasDoubleUnderscore]
      | cons b t =>
        rw [hcr] at ih
        simp only [hasDoubleUnderscore, ih, Bool.or_false, Bool.and_eq_false_iff]
        by_cases ha : a = '_'
        · right
          simp only [decide_eq_false_iff_not]
          intro hb
          exact hcond ⟨ha, by rw [hcr, hb]; rfl⟩
        · left
          simp [ha]

theorem hasDD_tail {a : Char} {rest : List Char}
    (h : hasDoubleUnderscore (a :: rest) = false) : hasDoubleUnderscore rest = false := by
  cases rest with
  | nil => rfl
  | cons b t =>
    simp only [hasDoubleUnderscore, Bool.or_eq_false_iff] at h
    exact h.2

theorem collapseUnderscores_eq_self :
    ∀ l : List Char, hasDoubleUnderscore l = false → collapseUnderscores l = l
  | [] => fun _ => rfl
  | a :: rest => by
    intro h
    simp only [collapseUnderscores]
    rw [collapseUnderscores_eq_self rest (hasDD_tail h)]
    rw [if_neg]
    intro ⟨ha, hh⟩
    cases rest with
    | nil => simp at hh
    | cons b t =>
      simp only [List.head?_cons, Option.some.injEq] at hh
      simp [hasDoubleUnderscore, ha, hh] at h

theorem hasDD_iff_chain (l : List Char) :
    hasDoubleUnderscore l = false ↔ l.Chain' (fun a b => ¬(a = '_' ∧ b = '_')) := by
  induction l with
  | nil => simp [hasDoubleUnderscore]
  | cons a rest ih =>
    cases rest with
    | nil => simp [hasDoubleUnderscore]
    | cons b t =>
      rw [List.chain'_cons, ← ih]
      simp only [hasDoubleUnderscore, Bool.or_eq_false_iff, Bool.and_eq_false_iff,
        decide_eq_false_iff_not]
      tauto

theorem hasDD_reverse {l : List Char} (h : hasDoubleUnderscore l = false) :
    hasDoubleUnderscore l.reverse = false := by
  rw [hasDD_iff_chain] at h ⊢
  exact List.chain'_reverse.mpr (h.imp fun a b hab ⟨h1, h2⟩ => hab ⟨h2, h1⟩)

theorem mem_dropLeadUnderscore {c : Char} {l : List Char}
    (h : c ∈ dropLeadUnderscore l) : c ∈ l := by
  cases l with
  | nil => simp [dropLeadUnderscore] at h
  | cons a rest =>
    simp only [dropLeadUnderscore] at h
    by_cases ha : a = '_'
    · rw [if_pos ha] at h; exact List.mem_cons_of_mem _ h
    · rwa [if_neg ha] at h

theorem hasDD_dropLeadUnderscore {l : List Char} (h : hasDoubleUnderscore l = false) :
    hasDoubleUnderscore (dropLeadUnderscore l) = false := by
  cases l with
  | nil => rfl
  | cons a rest =>
    simp only [dropLeadUnderscore]
    by_cases ha : a = '_'
    · rw [if_pos ha]; exact hasDD_tail h
    · rwa [if_neg ha]

theorem head_dropLeadUnderscore {l : List Char} (h : hasDoubleUnderscore l = false) :
    (dropLeadUnderscore l).head? ≠ some '_' := by
  cases l with
  | nil => simp [dropLeadUnderscore]
  | cons a rest =>
    simp only [dropLeadUnderscore]
    by_cases ha : a = '_'
    · rw [if_pos ha]
      cases rest with
      | nil => simp
      | cons b t =>
        simp only [List.head?_cons, ne_eq, Option.some.injEq]
        intro hb
        simp [hasDoubleUnderscore, ha, hb] at h
    · rw [if_neg ha]
      simpa using ha

theorem dropLeadUnderscore_eq_self {l : List Char} (h : l.head? ≠ some '_') :
    dropLeadUnderscore l = l := by
  cases l with
  | nil => rfl
  | cons a rest =>
    simp only [List.head?_cons, ne_eq, Option.some.injEq] at h
    simp [dropLeadUnderscore, h]

theorem mem_stripEnds {c : Char} {l : List Char} (h : c ∈ stripEnds l) : c ∈ l := by
  rw [stripEnds, dropTrailUnderscore, List.mem_reverse] at h
  have h1 := mem_dropLeadUnderscore h
  rw [List.mem_reverse] at h1
  exact mem_dropLeadUnderscore h1

theorem hasDD_stripEnds {l : List Char} (h : hasDoubleUnderscore l = false) :
    hasDoubleUnderscore (stripEnds l) = false := by
  rw [stripEnds, dropTrailUnderscore]
  exact hasDD_reverse (hasDD_dropLeadUnderscore (hasDD_reverse (hasDD_dropLeadUnderscore h)))

theorem last_stripEnds {l : List Char} (h : hasDoubleUnderscore l = false) :
    (stripEnds l).getLast? ≠ some '_' := by
  rw [stripEnds, dropTrailUnderscore, List.getLast?_reverse]
  exact head_dropLeadUnderscore (hasDD_reverse (hasDD_dropLeadUnderscore h))

theorem dropTrailUnderscore_cases (y : List Char) :
    dropTrailUnderscore y = y ∨ ∃ t, y = t ++ ['_'] ∧ dropTrailUnderscore y = t := by
  cases hyr : y.reverse with
  | nil =>
    left
    have hy : y = [] := by simpa using congrArg List.reverse hyr
    simp [hy, dropTrailUnderscore, dropLeadUnderscore]
  | cons c t =>
    have hy : y = (c :: t).reverse := by rw [← hyr, List.reverse_reverse]
    by_cases hc : c = '_'
    · right
      refine ⟨t.reverse, ?_, ?_⟩
      · rw [hy, hc]; simp
      · rw [dropTrailUnderscore, hyr]
        simp [dropLeadUnderscore, hc]
    · left
      rw [dropTrailUnderscore, hyr]
      simp only [dropLeadUnderscore, if_neg hc]
      rw [← hyr, List.reverse_reverse]

theorem head_stripEnds {l : List Char} (h : hasDoubleUnderscore l = false) :
    (stripEnds l).head? ≠ some '_' := by
  have hy := head_dropLeadUnderscore h
  rw [stripEnds]
  rcases dropTrailUnderscore_cases (dropLeadUnderscore l) with heq | ⟨t, hsplit, heq⟩
  · rw [heq]; exact hy
  · rw [heq]
    cases t with
    | nil => simp
    | cons x t' =>
      rw [hsplit] at hy
      simpa using hy

theorem stripEnds_eq_self {l : List Char} (h1 : l.head? ≠ some '_')
    (h2 : l.getLast? ≠ some '_') : stripEnds l = l := by
  rw [stripEnds, dropLeadUnderscore_eq_self h1, dropTrailUnderscore,
    dropLeadUnderscore_eq_self (by rwa [List.head?_reverse]), List.reverse_reverse]

theorem sanOut_sanitizeCore (l : List Char) :
    ∀ c ∈ sanitizeCore l, sanOutChar c = true := by
  intro c hc
  have h1 := mem_collapseUnderscores _ (mem_stripEnds hc)
  rw [List.map_map, List.mem_map] at h1
  obtain ⟨a, _, ha⟩ := h1
  rw [← ha]
  exact sanOut_lowerChar_replChar a

theorem hasDD_sanitizeCore (l : List Char) :
    hasDoubleUnderscore (sanitizeCore l) = false :=
  hasDD_stripEnds (hasDD_collapseUnderscores _)

theorem head_sanitizeCore (l : List Char) : (sanitizeCore l).head? ≠ some '_' :=
  head_stripEnds (hasDD_collapseUnderscores _)

theorem last_sanitizeCore (l : List Char) : (sanitizeCore l).getLast? ≠ some '_' :=
  last_stripEnds (hasDD_collapseUnderscores _)

theorem map_eq_self_of_fix {f : Char → Char} :
    ∀ l : List Char, (∀ c ∈ l, f c = c) → l.map f = l
  | [], _ => rfl
  | a :: rest, h => by
    simp only [List.map_cons]
    rw [h a (List.mem_cons_self a rest),
      map_eq_self_of_fix rest fun c hc => h c (List.mem_cons_of_mem _ hc)]

theorem sanitizeCore_fixed (r : List Char) (hall : ∀ c ∈ r, sanOutChar c = true)
    (hdd : hasDoubleUnderscore r = false) (hh : r.head? ≠ some '_')
    (hl : r.getLast? ≠ some '_') : sanitizeCore r = r := by
  have h1 : r.map replChar = r :=
    map_eq_self_of_fix r fun a ha => replChar_eq_self_of_sanOut (hall a ha)
  have h2 : r.map lowerChar = r :=
    map_eq_self_of_fix r fun a ha => lowerChar_eq_self_of_sanOut (hall a ha)
  rw [sanitizeCore, h1, h2, collapseUnderscores_eq_self r hdd, stripEnds_eq_self hh hl]

theorem collapse_all_underscore :
    ∀ l : List Char, (∀ c ∈ l, c = '_') → l = [] ∨ collapseUnderscores l = ['_']
  | [], _ => Or.inl rfl
  | a :: rest, h => by
    right
    have ha : a = '_' := h a (List.mem_cons_self a rest)
    rcases collapse_all_underscore rest (fun c hc => h c (List.mem_cons_of_mem _ hc)) with
      hr | hr
    · subst hr; subst ha; decide
    · subst ha
      simp only [collapseUnderscores, hr]
      decide

theorem sanitizeCore_all_invalid (l : List Char) (h : ∀ c ∈ l, validChar c = false) :
    sanitizeCore l = [] := by
  have hall : ∀ c ∈ (l.map replChar).map lowerChar, c = '_' := by
    intro c hc
    rw [List.map_map, List.mem_map] at hc
    obtain ⟨a, ha, hc⟩ := hc
    rw [← hc]
    show lowerChar (replChar a) = '_'
    rw [show replChar a = '_' from by rw [replChar, if_neg (by simp [h a ha])]]
    decide
  rcases collapse_all_underscore _ hall with hr | hr
  · rw [sanitizeCore, hr]; rfl
  · rw [sanitizeCore, hr]; decide

/-! ### Parser invariants -/

theorem processProbeLine_streams_ne_nil {st : ProbeState} (line : List Char)
    (h : ∀ r ∈ st.streams, r ≠ []) :
    ∀ r ∈ (processProbeLine st line).streams, r ≠ [] := by
  unfold processProbeLine
  split
  · exact h
  · split
    · intro r hr
      by_cases hc : st.currentStream = [] <;> simp [hc] at hr ⊢
      · exact h r hr
      · rcases hr with hr | hr
        · exact h r hr
        · simpa [hr] using hc
    · split
      · split <;> exact h
      · exact h

theorem foldl_processProbeLine_streams_ne_nil (lines : List (List Char)) :
    ∀ st : ProbeState, (∀ r ∈ st.streams, r ≠ []) →
      ∀ r ∈ (lines.foldl processProbeLine st).streams, r ≠ [] := by
  induction lines with
  | nil => intro st h; simpa using h
  | cons line rest ih =>
    intro st h
    exact ih (processProbeLine st line) (processProbeLine_streams_ne_nil line h)

theorem parseFFprobeOutput_streams_ne_nil (s : String) :
    ∀ r ∈ (parseFFprobeOutput s).streams, r ≠ [] := by
  unfold parseFFprobeOutput
  intro r hr
  have base := foldl_processProbeLine_streams_ne_nil (splitNewline s.toList)
    ⟨[], [], [], false⟩ (by simp)
  set st := (splitNewline s.toList).foldl processProbeLine ⟨[], [], [], false⟩ with hst
  by_cases hc : st.currentStream = [] <;> simp [hc] at hr
  · exact base r hr
  · rcases hr with hr | hr
    · exact base r hr
    · simpa [hr] using hc

/-- Trimming cannot remove the leading `ffmpeg` of a command that starts
with it: whitespace is only stripped from the ends, and the six letters of
`ffmpeg` are not whitespace. -/
theorem ffmpeg_prefix_trim (t : List Char) :
    "ffmpeg".toList <+: jsTrim ("ffmpeg".toList ++ t) := by
  unfold jsTrim
  have hdrop : ("ffmpeg".toList ++ t).dropWhile isJsSpace = "ffmpeg".toList ++ t := by
    rw [List.dropWhile_append,
        show ("ffmpeg".toList.dropWhile isJsSpace) = "ffmpeg".toList from by decide]
    simp
  rw [hdrop, List.reverse_append, List.dropWhile_append]
  split
  · have : ("ffmpeg".toList.reverse.dropWhile isJsSpace) = "ffmpeg".toList.reverse := by decide
    rw [this, List.reverse_reverse]
  · rw [List.reverse_append, List.reverse_reverse]
    exact List.prefix_append _ _

/-- On a command that does not match `^ffmpeg\s`, the rewrite is the
identity. -/
theorem replaceFfmpegY_eq_self {l : List Char} (h : startsFfmpegSpace l = false) :
    replaceFfmpegY l = l := by
  unfold replaceFfmpegY
  split
  · rename_i c rest
    simp only [startsFfmpegSpace] at h
    simp [h]
  · rfl

/-! ### Claim theorems -/

/-- C1 (counterexample): the claim says the value keeps every character
after the first `=`, so parsing the line `a=b=c` would store `b=c` under
`a`.  In fact the limit-2 split drops everything from the second `=` on:
the stored value is `b`. -/
theorem probe_line_split_counterexample :
    (parseFFprobeOutput "a=b=c").format = [("a", "b")] ∧
    (parseFFprobeOutput "a=b=c").format ≠ [("a", "b=c")] := by
  decide

/-- C1 (amended): any line that is not a section marker and contains `=`
is split into a key (the trimmed text before the first `=`) and a value
(the trimmed text strictly between the first and the second `=`; text from
the second `=` onward is dropped), and the pair is inserted into the
currently active section (format map, or in-progress stream map). -/
theorem probe_line_split_amended (st : ProbeState) (line : List Char)
    (hf : "[FORMAT]".toList.isPrefixOf line = false)
    (hs : "[STREAM]".toList.isPrefixOf line = false)
    (he : line.contains '=' = true) :
    processProbeLine st line =
      (let k := String.mk (jsTrim (line.takeWhile (· ≠ '=')))
       let v := String.mk (jsTrim (((line.dropWhile (· ≠ '=')).drop 1).takeWhile (· ≠ '=')))
       if st.inStream then { st with currentStream := jsObjectInsert st.currentStream k v }
       else { st with format := jsObjectInsert st.format k v }) := by
  simp at hf hs he
  simp [processProbeLine, hf, hs, he, splitEqKey, splitEqVal]

/-- C1 witness: the amended split behaviour at the concrete line `a=b=c`
in the format section. -/
theorem probe_line_split_amended_witness :
    (processProbeLine ⟨[], [], [], false⟩ "a=b=c".toList).format = [("a", "b")] := by
  rw [probe_line_split_amended _ _ (by decide) (by decide) (by decide)]
  decide

/-- C2: any command whose trimmed text starts with neither `ffmpeg` nor
`ffprobe` is rejected by `executeFFmpegCommandTool` with the validation
envelope (`success = false`, error `Invalid command`), and no command is
handed to the shell runner. -/
theorem command_allowlist_rejects (cmd : String)
    (h1 : "ffmpeg".toList.isPrefixOf (jsTrim cmd.toList) = false)
    (h2 : "ffprobe".toList.isPrefixOf (jsTrim cmd.toList) = false) :
    executeFFmpegCommandToolRoute cmd =
      ToolOutcome.reject ⟨false, "Only ffmpeg and ffprobe commands are allowed", some "Invalid command"⟩ ∧
    ∀ c, executeFFmpegCommandToolRoute cmd ≠ ToolOutcome.execute c := by
  refine ⟨?_, ?_⟩ <;>
  · simp only [executeFFmpegCommandToolRoute]
    rw [h1, h2]
    simp

/-- C2 witness: the shell command `rm -rf uploads` is rejected. -/
theorem command_allowlist_rejects_witness :
    executeFFmpegCommandToolRoute "rm -rf uploads" =
      ToolOutcome.reject ⟨false, "Only ffmpeg and ffprobe commands are allowed", some "Invalid command"⟩ ∧
    ∀ c, executeFFmpegCommandToolRoute "rm -rf uploads" ≠ ToolOutcome.execute c :=
  command_allowlist_rejects "rm -rf uploads" (by decide) (by decide)

/-- C3: on the timeout branch every runner kills its process and resolves
with `success = false`, `output = ""`, `error = "Command timed out"`,
whatever output had been collected so far. -/
theorem runner_timeout_resolution (stdout stderr : String) :
    argvRunnerStep stdout stderr ArgvEvent.timedOut =
      (⟨false, "", some "Command timed out"⟩, true) ∧
    shellRunnerStep ShellEvent.timedOut =
      (⟨false, "", some "Command timed out"⟩, true) :=
  ⟨rfl, rfl⟩

/-- C4: when the spawned process closes with exit code 0 the argv runner
returns success with stdout followed by stderr and no error; on a nonzero
exit code it returns failure with the captured output and the error message
`Process exited with code c`. -/
theorem argv_close_exit_code (stdout stderr : String) (code : Int) :
    (code = 0 →
      argvRunnerStep stdout stderr (ArgvEvent.close code) =
        (⟨true, stdout ++ stderr, none⟩, false)) ∧
    (code ≠ 0 →
      argvRunnerStep stdout stderr (ArgvEvent.close code) =
        (⟨false, stdout ++ stderr, some ("Process exited with code " ++ toString code)⟩, false)) := by
  constructor
  · intro h; subst h; rfl
  · intro h; simp [argvRunnerStep, h]

/-- C4 witness: the close handler at exit codes 0 and 1 with captured
output `out` / `err`. -/
theorem argv_close_exit_code_witness :
    argvRunnerStep "out" "err" (ArgvEvent.close 0) = (⟨true, "out" ++ "err", none⟩, false) ∧
    argvRunnerStep "out" "err" (ArgvEvent.close 1) =
      (⟨false, "out" ++ "err", some ("Process exited with code " ++ toString (1 : Int))⟩, false) :=
  ⟨(argv_close_exit_code "out" "err" 0).1 rfl,
   (argv_close_exit_code "out" "err" 1).2 (by decide)⟩

/-- C5 (counterexample): the bare command `ffmpeg` begins with the
transcoding-engine name and is accepted by the allow-list, yet it is
executed unchanged: the rewrite regex requires a whitespace character
after `ffmpeg`, so no `-y` flag is injected. -/
theorem overwrite_flag_counterexample :
    executeFFmpegCommandToolRoute "ffmpeg" = ToolOutcome.execute "ffmpeg" ∧
    "ffmpeg" ≠ "ffmpeg -y" ∧ "ffmpeg" ≠ "ffmpeg -y " := by
  decide

/-- C5 (amended): `-y` is injected exactly when the raw command string
begins with `ffmpeg` immediately followed by a whitespace character: that
prefix is rewritten to `ffmpeg -y ` and the remainder executed after it
(first conjunct); every other accepted command — including the bare
command `ffmpeg` of the counterexample — is executed entirely unchanged
(second conjunct). -/
theorem overwrite_flag_amended :
    (∀ (c : Char) (rest : List Char), isJsSpace c = true →
      executeFFmpegCommandToolRoute
          (String.mk ('f' :: 'f' :: 'm' :: 'p' :: 'e' :: 'g' :: c :: rest)) =
        ToolOutcome.execute (String.mk ("ffmpeg -y ".toList ++ rest))) ∧
    (∀ cmd : String, startsFfmpegSpace cmd.toList = false →
      ("ffmpeg".toList.isPrefixOf (jsTrim cmd.toList) ||
        "ffprobe".toList.isPrefixOf (jsTrim cmd.toList)) = true →
      executeFFmpegCommandToolRoute cmd = ToolOutcome.execute cmd) := by
  constructor
  · intro c rest hc
    have hpre : "ffmpeg".toList.isPrefixOf
        (jsTrim ('f' :: 'f' :: 'm' :: 'p' :: 'e' :: 'g' :: c :: rest)) = true := by
      have h := ffmpeg_prefix_trim (c :: rest)
      simpa using h
    simp only [executeFFmpegCommandToolRoute]
    rw [show (String.mk ('f' :: 'f' :: 'm' :: 'p' :: 'e' :: 'g' :: c :: rest)).toList =
        'f' :: 'f' :: 'm' :: 'p' :: 'e' :: 'g' :: c :: rest from rfl]
    rw [hpre]
    simp [replaceFfmpegY, hc]
  · intro cmd hpat hacc
    have hcond : (!("ffmpeg".toList.isPrefixOf (jsTrim cmd.toList)) &&
        !("ffprobe".toList.isPrefixOf (jsTrim cmd.toList))) = false := by
      simp only [Bool.or_eq_true] at hacc
      rcases hacc with h | h
      · simp only [h, Bool.not_true, Bool.false_and]
      · simp only [h, Bool.not_true, Bool.and_false]
    simp only [executeFFmpegCommandToolRoute]
    rw [hcond]
    simp only [Bool.false_eq_true, if_false]
    rw [replaceFfmpegY_eq_self hpat]
    rfl

/-- C5 witness: `ffmpeg -i in.mp4 out.mp4` is rewritten to
`ffmpeg -y -i in.mp4 out.mp4` before execution, while the accepted
command ` ffmpeg -i a.mp4 b.mp4` (leading whitespace, so the anchored
rewrite pattern does not match) is executed unchanged. -/
theorem overwrite_flag_amended_witness :
    executeFFmpegCommandToolRoute
        (String.mk ('f' :: 'f' :: 'm' :: 'p' :: 'e' :: 'g' :: ' ' :: "-i in.mp4 out.mp4".toList)) =
      ToolOutcome.execute (String.mk ("ffmpeg -y ".toList ++ "-i in.mp4 out.mp4".toList)) ∧
    executeFFmpegCommandToolRoute " ffmpeg -i a.mp4 b.mp4" =
      ToolOutcome.execute " ffmpeg -i a.mp4 b.mp4" :=
  ⟨overwrite_flag_amended.1 ' ' "-i in.mp4 out.mp4".toList (by decide),
   overwrite_flag_amended.2 " ffmpeg -i a.mp4 b.mp4" (by decide) (by decide)⟩

/-- C6 (counterexample): the claim says every character of a sanitized
name is a letter, digit, dot or hyphen; but invalid characters are
replaced by an underscore, which stays in the output: `a b` sanitizes to
`a_b`. -/
theorem sanitize_charset_counterexample :
    sanitizeFilename "a b" = "a_b" ∧ ("a_b".toList.all validChar) = false := by
  decide

/-- C6 (amended): every character of a sanitized name is a lowercase
letter, digit, dot, hyphen or underscore (invalid characters are replaced
by `_`, which remains); underscore runs are collapsed; the result neither
starts nor ends with an underscore and is never empty; a string with no
valid character falls back to `uploaded_file`. -/
theorem sanitize_charset_amended (s : String) :
    (sanitizeFilename s).toList.all sanOutChar = true ∧
    hasDoubleUnderscore (sanitizeFilename s).toList = false ∧
    (sanitizeFilename s).toList.head? ≠ some '_' ∧
    (sanitizeFilename s).toList.getLast? ≠ some '_' ∧
    sanitizeFilename s ≠ "" ∧
    sanitizeFilename "<>?*" = "uploaded_file" := by
  by_cases h : sanitizeCore s.toList = []
  · have hd : sanitizeCore s.data = [] := h
    have hs : sanitizeFilename s = "uploaded_file" := by
      rw [sanitizeFilename]; simp [hd]
    rw [hs]
    refine ⟨by decide, by decide, by decide, by decide, by decide, by decide⟩
  · have hd : ¬sanitizeCore s.data = [] := h
    have hs : sanitizeFilename s = String.mk (sanitizeCore s.toList) := by
      rw [sanitizeFilename]; simp [hd]
    rw [hs]
    have htl : (String.mk (sanitizeCore s.toList)).toList = sanitizeCore s.toList := rfl
    rw [htl]
    refine ⟨?_, hasDD_sanitizeCore _, head_sanitizeCore _, last_sanitizeCore _, ?_, by decide⟩
    · rw [List.all_eq_true]
      exact sanOut_sanitizeCore s.toList
    · intro hcontra
      apply h
      have : (String.mk (sanitizeCore s.toList)).data = ("" : String).data :=
        congrArg String.data hcontra
      simpa using this

/-- C7: sanitization is idempotent, and a string all of whose characters
are outside `[a-zA-Z0-9.-]` sanitizes to the fallback `uploaded_file`. -/
theorem sanitize_idempotent (x : String) :
    sanitizeFilename (sanitizeFilename x) = sanitizeFilename x ∧
    (x.toList.all (fun c => !validChar c) = true →
      sanitizeFilename x = "uploaded_file") := by
  constructor
  · by_cases h : sanitizeCore x.toList = []
    · have hd : sanitizeCore x.data = [] := h
      have hs : sanitizeFilename x = "uploaded_file" := by
        rw [sanitizeFilename]; simp [hd]
      rw [hs]; decide
    · have hd : ¬sanitizeCore x.data = [] := h
      have hs : sanitizeFilename x = String.mk (sanitizeCore x.toList) := by
        rw [sanitizeFilename]; simp [hd]
      rw [hs]
      have htl : (String.mk (sanitizeCore x.toList)).toList = sanitizeCore x.toList := rfl
      have hfix : sanitizeCore (sanitizeCore x.toList) = sanitizeCore x.toList :=
        sanitizeCore_fixed _ (sanOut_sanitizeCore _) (hasDD_sanitizeCore _)
          (head_sanitizeCore _) (last_sanitizeCore _)
      rw [sanitizeFilename, htl, hfix]
      simp [hd]
  · intro hall
    have h' : ∀ c ∈ x.toList, validChar c = false := by
      rw [List.all_eq_true] at hall
      intro c hc
      simpa using hall c hc
    rw [sanitizeFilename, sanitizeCore_all_invalid _ h']
    rfl

/-- C7 witness: idempotence and the all-invalid fallback at the concrete
input `!!!`. -/
theorem sanitize_idempotent_witness :
    sanitizeFilename (sanitizeFilename "!!!") = sanitizeFilename "!!!" ∧
    sanitizeFilename "!!!" = "uploaded_file" :=
  ⟨(sanitize_idempotent "!!!").1, (sanitize_idempotent "!!!").2 (by decide)⟩

/-- C8: two consecutive `startCapture` calls leave the session owning only
the second process handle, with the second output file recorded; the first
handle is killed during the second call.  `captureProcess : Option Nat`
holds at most one handle by construction. -/
theorem capture_supersede (st : CaptureState) (cmd1 fileA cmd2 fileB : String) :
    (startCapture (startCapture st cmd1 fileA) cmd2 fileB).captureOutputFile = some fileB ∧
    (startCapture (startCapture st cmd1 fileA) cmd2 fileB).captureProcess =
      some (st.nextHandle + 1) ∧
    (startCapture st cmd1 fileA).captureProcess = some st.nextHandle ∧
    (startCapture (startCapture st cmd1 fileA) cmd2 fileB).killedHandles =
      (startCapture st cmd1 fileA).killedHandles ++ [st.nextHandle] ∧
    (startCapture (startCapture st cmd1 fileA) cmd2 fileB).captureProcess ≠
      some st.nextHandle := by
  cases h : st.captureProcess <;> simp [startCapture, h]

/-- C9: the parser keeps `[STREAM]` sections in input order and flushes the
final in-progress stream record at end of input: the concrete probe text
with one format line and two stream sections parses to the expected
structured record. -/
theorem probe_parse_order_flush :
    parseFFprobeOutput
        "[FORMAT]\nduration=12.3\n[STREAM]\ncodec_name=h264\n[STREAM]\ncodec_name=aac\n" =
      ⟨[("duration", "12.3")], [[("codec_name", "h264")], [("codec_name", "aac")]]⟩ := by
  decide

/-- C10: a `[FORMAT]` marker met while a stream record is in progress
redirects later `key=value` lines to the format map without discarding the
record, which is still emitted at the next `[STREAM]` marker (first
conjunct) or at end of input (second conjunct); and the parser never emits
an empty stream record (third conjunct). -/
theorem probe_format_mid_stream :
    parseFFprobeOutput "[STREAM]\na=1\n[FORMAT]\nd=2\n[STREAM]\nb=3\n" =
      ⟨[("d", "2")], [[("a", "1")], [("b", "3")]]⟩ ∧
    parseFFprobeOutput "[STREAM]\na=1\n[FORMAT]\nd=2\n" =
      ⟨[("d", "2")], [[("a", "1")]]⟩ ∧
    ∀ s : String, [] ∉ (parseFFprobeOutput s).streams := by
  refine ⟨by decide, by decide, ?_⟩
  intro s hmem
  exact parseFFprobeOutput_streams_ne_nil s [] hmem rfl

end FFmpegMCP
